import Mathlib

/-!
Verification of the HZK glyph-atlas codec in `src/hzk/hzk_gui.py`
(`encode_hzk_file`, `decode_hzk_file`, `bits_to_byte_array`).

Modelling conventions:
* A pixel is the RGBA quadruple `PIL`'s `pixel_array[x, y]` returns,
  modelled as `Nat × Nat × Nat × Nat`.
* An atlas image is its dimensions together with its pixel access
  function (`Image`).
* The encoder's input directory is modelled as the map from a level's
  ordinal index to the image stored under that level's file name
  (`Nat → Image`); the file name itself is reproduced by `imgName`.
* The output `.hzk` file is the list of bytes written to it, in order;
  a byte is a `Nat`.  Raised exceptions (`AssertionError` on bad
  dimensions, `ValueError` on a bad pixel) become `Except` errors that
  abort the run, carrying the same data as the Python messages.
* Python's `bytearray(n)` for an `int` `n` is `n` zero bytes, hence
  `List.replicate n 0` below.
* `bits_to_byte_array` mutates its argument (the padding `append`s);
  the model returns the final state of the argument list in the first
  component and the produced bytes in the second.
-/

/-- The ten fixed glyph pixel widths (`PIXEL_WIDTHS` in the source). -/
def PIXEL_WIDTHS : List Nat := [6, 8, 10, 12, 14, 16, 20, 24, 28, 32]

/-- An RGBA pixel value as returned by `pixel_array[x, y]`. -/
abbrev Rgba := Nat × Nat × Nat × Nat

/-- A raster image: its dimensions and its pixel map, `pixel x y`
being the pixel in column `x`, row `y`. -/
structure Image where
  width : Nat
  height : Nat
  pixel : Nat → Nat → Rgba

/-- Zero-pad `toString i` to two characters, as Python's `f'{i:02}'`. -/
def pad2 (i : Nat) : String :=
  let s := toString i
  if s.length < 2 then "0" ++ s else s

/-- The atlas file name for level `i`:
`f'0x{i:02}_{width}x{height}_0-127.png'` (directory prefix omitted). -/
def imgName (i width height : Nat) : String :=
  "0x" ++ pad2 i ++ "_" ++ toString width ++ "x" ++ toString height ++ "_0-127.png"

/-- `sum(v << i for i, v in enumerate(bit_array[::-1]))`: the numeric
value of the bit list, most significant bit first. -/
def bitValue (bits : List Nat) : Nat :=
  (bits.reverse.enum.map (fun p => p.2 <<< p.1)).sum

/-- `bits_to_byte_array`.  The source pads `bit_array` in place to a
multiple of 8 bits and returns `bytearray(sum(v << i for i, v in
enumerate(bit_array[::-1])))` — a zero-filled byte array whose length
is the numeric value of the padded bit list.  First component: the
argument list after the call (the in-place padding made visible);
second component: the returned bytes. -/
def bits_to_byte_array (bit_array : List Nat) : List Nat × List Nat :=
  let remainder := bit_array.length % 8
  let padded :=
    if remainder ≠ 0 then bit_array ++ List.replicate (8 - remainder) 0 else bit_array
  (padded, List.replicate (bitValue padded) 0)

/-- The errors `encode_hzk_file` can raise: the re-raised
`AssertionError` (`'Bad Dimensions: {img_name} ({img.width}x{img.height})'`)
and the `ValueError`
(`'Invalid image: {img_name} - image contains RGB value: {r}, {g}, {b}'`). -/
inductive EncodeError where
  | badDimensions (name : String) (width height : Nat)
  | invalidPixel (name : String) (r g b : Nat)
  deriving DecidableEq

/-- Classify one sampled pixel: black `(0,0,0)` is bit 1, white
`(255,255,255)` is bit 0, anything else raises `ValueError` naming the
file and the RGB triple (the alpha channel is unpacked but unused). -/
def classifyPixel (name : String) (p : Rgba) : Except EncodeError Nat :=
  if (p.1, p.2.1, p.2.2.1) = ((0 : Nat), (0 : Nat), (0 : Nat)) then .ok 1
  else if (p.1, p.2.1, p.2.2.1) = ((255 : Nat), (255 : Nat), (255 : Nat)) then .ok 0
  else .error (.invalidPixel name p.1 p.2.1 p.2.2.1)

/-- The inner `for w in range(1, width)` loop: sample the pixels
`pixel_array[col*(width+1)+w, row*(height+1)+h]` for each `w` in the
list, appending one bit per pixel to the bit array. -/
def sampleCols (img : Image) (name : String) (width height row col h : Nat) :
    List Nat → Except EncodeError (List Nat)
  | [] => .ok []
  | w :: ws =>
    match classifyPixel name (img.pixel (col * (width + 1) + w) (row * (height + 1) + h)) with
    | .error e => .error e
    | .ok bit =>
      match sampleCols img name width height row col h ws with
      | .error e => .error e
      | .ok bits => .ok (bit :: bits)

/-- The `for h in range(1, height)` loop: for each pixel row of the
glyph build its bit array over `range(1, width)` and write
`bits_to_byte_array(bit_array)` to the output file. -/
def glyphRows (img : Image) (name : String) (width height row col : Nat) :
    List Nat → Except EncodeError (List Nat)
  | [] => .ok []
  | h :: hs =>
    match sampleCols img name width height row col h (List.range' 1 (width - 1)) with
    | .error e => .error e
    | .ok bits =>
      match glyphRows img name width height row col hs with
      | .error e => .error e
      | .ok rest => .ok ((bits_to_byte_array bits).2 ++ rest)

/-- The `for col in range(16)` loop, skipping the reserved hole
(`i == 9 and row == 7 and col == 15`). -/
def packCols (img : Image) (name : String) (i width height row : Nat) :
    List Nat → Except EncodeError (List Nat)
  | [] => .ok []
  | col :: cols =>
    if i = 9 ∧ row = 7 ∧ col = 15 then packCols img name i width height row cols
    else
      match glyphRows img name width height row col (List.range' 1 (height - 1)) with
      | .error e => .error e
      | .ok bytes =>
        match packCols img name i width height row cols with
        | .error e => .error e
        | .ok rest => .ok (bytes ++ rest)

/-- The `for row in range(8)` loop. -/
def packRows (img : Image) (name : String) (i width height : Nat) :
    List Nat → Except EncodeError (List Nat)
  | [] => .ok []
  | row :: rows =>
    match packCols img name i width height row (List.range 16) with
    | .error e => .error e
    | .ok bytes =>
      match packRows img name i width height rows with
      | .error e => .error e
      | .ok rest => .ok (bytes ++ rest)

/-- Encode one level: check `img.height == image_height` and
`img.width == image_width` (raising the re-thrown `AssertionError`
with the file's name and actual dimensions on mismatch), then run the
grid loops. -/
def encodeLevel (img : Image) (name : String) (i width height : Nat) :
    Except EncodeError (List Nat) :=
  if img.height = (height + 1) * 8 + 1 ∧ img.width = (width + 1) * 16 + 1 then
    packRows img name i width height (List.range 8)
  else
    .error (.badDimensions name img.width img.height)

/-- The `for i, width in enumerate(PIXEL_WIDTHS)` loop over the given
(index, width) pairs, concatenating each level's bytes. -/
def encodeLevels (store : Nat → Image) : List (Nat × Nat) → Except EncodeError (List Nat)
  | [] => .ok []
  | (i, width) :: rest =>
    let height := width * 2
    match encodeLevel (store i) (imgName i width height) i width height with
    | .error e => .error e
    | .ok bytes =>
      match encodeLevels store rest with
      | .error e => .error e
      | .ok more => .ok (bytes ++ more)

/-- `encode_hzk_file`: the bytes written to the output file, or the
first raised error.  `store i` is the image found under level `i`'s
file name in the input directory. -/
def encode_hzk_file (store : Nat → Image) : Except EncodeError (List Nat) :=
  encodeLevels store PIXEL_WIDTHS.enum

/-- `decode_hzk_file`: the source opens the input file, enters
`for i, width in enumerate(PIXEL_WIDTHS)`, computes `height = width * 2`
and then executes a bare `return` in the first iteration, so it writes
no image at all.  Modelled as the list of images it writes. -/
def decode_hzk_file (_input : List Nat) : List Image := []

/-- Modelled from the spec (§4.3), for comparison with the source's
`bits_to_byte_array`: "pads the input to a multiple of 8 with 0s at
the end, then packs each consecutive group of 8 bits into one byte
with the first bit of the group occupying the most-significant
position".  `specChunks8` splits into consecutive groups of 8;
`specByteOfBits` packs one group MSB-first. -/
def specByteOfBits (g : List Nat) : Nat :=
  g.foldl (fun acc b => 2 * acc + b) 0

/-- Consecutive groups of (at most) 8 elements. -/
def specChunks8 : List Nat → List (List Nat)
  | [] => []
  | b1 :: b2 :: b3 :: b4 :: b5 :: b6 :: b7 :: b8 :: rest =>
    [b1, b2, b3, b4, b5, b6, b7, b8] :: specChunks8 rest
  | l => [l]

/-- Modelled from the spec (§4.3): the byte sequence the spec says the
bit-packing utility returns. -/
def packBitsSpec (bits : List Nat) : List Nat :=
  (specChunks8 (bits ++ List.replicate ((8 - bits.length % 8) % 8) 0)).map specByteOfBits

/-! ### Basic facts about the bit helper -/

theorem bitValue_eq_zero {l : List Nat} (h : ∀ b ∈ l, b = 0) : bitValue l = 0 := by
  unfold bitValue
  apply List.sum_eq_zero
  intro x hx
  obtain ⟨p, hp, rfl⟩ := List.mem_map.1 hx
  have hz : p.2 ∈ l.reverse := by
    rw [List.enum_eq_zip_range] at hp
    exact (List.of_mem_zip hp).2
  have h2 : p.2 = 0 := h _ (List.mem_reverse.1 hz)
  simp [h2, Nat.zero_shiftLeft]

theorem bits_to_byte_array_padded (bits : List Nat) :
    (bits_to_byte_array bits).1 =
      bits ++ List.replicate ((8 - bits.length % 8) % 8) 0 := by
  unfold bits_to_byte_array
  by_cases h : bits.length % 8 = 0
  · simp [h]
  · have hlt : bits.length % 8 < 8 := Nat.mod_lt _ (by omega)
    have : (8 - bits.length % 8) % 8 = 8 - bits.length % 8 := Nat.mod_eq_of_lt (by omega)
    simp [h, this]

theorem bits_to_byte_array_out_zero {bits : List Nat} (h : ∀ b ∈ bits, b = 0) :
    (bits_to_byte_array bits).2 = [] := by
  unfold bits_to_byte_array
  have hall : ∀ b ∈ (if bits.length % 8 ≠ 0 then
      bits ++ List.replicate (8 - bits.length % 8) 0 else bits), b = 0 := by
    intro b hb
    by_cases hc : bits.length % 8 ≠ 0
    · rw [if_pos hc] at hb
      rcases List.mem_append.1 hb with hb | hb
      · exact h b hb
      · exact (List.eq_of_mem_replicate hb)
    · rw [if_neg hc] at hb
      exact h b hb
  simp only [bitValue_eq_zero hall, List.replicate_zero]

theorem bitValue_cons (b : Nat) (l : List Nat) :
    bitValue (b :: l) = bitValue l + b <<< l.length := by
  unfold bitValue
  rw [List.reverse_cons, List.enum_append, List.map_append, List.sum_append]
  simp [List.enumFrom]

theorem bits_to_byte_array_snd (bits : List Nat) :
    (bits_to_byte_array bits).2 =
      List.replicate (bitValue (bits_to_byte_array bits).1) 0 := rfl

/-! ### Encoding all-white images -/

theorem classifyPixel_white (name : String) (a : Nat) :
    classifyPixel name (255, 255, 255, a) = .ok 0 := rfl

theorem classifyPixel_black (name : String) (a : Nat) :
    classifyPixel name (0, 0, 0, a) = .ok 1 := rfl

theorem classifyPixel_other (name : String) (r g b a : Nat)
    (hb : ¬(r = 0 ∧ g = 0 ∧ b = 0)) (hw : ¬(r = 255 ∧ g = 255 ∧ b = 255)) :
    classifyPixel name (r, g, b, a) = .error (.invalidPixel name r g b) := by
  unfold classifyPixel
  rw [if_neg (by simpa [Prod.ext_iff] using hb), if_neg (by simpa [Prod.ext_iff] using hw)]

theorem sampleCols_white (img : Image)
    (hpx : ∀ x y, img.pixel x y = (255, 255, 255, 255))
    (name : String) (width height row col h : Nat) :
    ∀ ws : List Nat,
      sampleCols img name width height row col h ws = .ok (List.replicate ws.length 0)
  | [] => rfl
  | w :: ws => by
    simp only [sampleCols, hpx, classifyPixel_white,
      sampleCols_white img hpx name width height row col h ws,
      List.length_cons, List.replicate_succ]

theorem glyphRows_white (img : Image)
    (hpx : ∀ x y, img.pixel x y = (255, 255, 255, 255))
    (name : String) (width height row col : Nat) :
    ∀ hs : List Nat, glyphRows img name width height row col hs = .ok []
  | [] => rfl
  | h :: hs => by
    have hz : (bits_to_byte_array (List.replicate (List.range' 1 (width - 1)).length 0)).2 = [] :=
      bits_to_byte_array_out_zero (fun b hb => List.eq_of_mem_replicate hb)
    simp only [glyphRows, sampleCols_white img hpx,
      glyphRows_white img hpx name width height row col hs, hz, List.nil_append]

theorem packCols_white (img : Image)
    (hpx : ∀ x y, img.pixel x y = (255, 255, 255, 255))
    (name : String) (i width height row : Nat) :
    ∀ cols : List Nat, packCols img name i width height row cols = .ok []
  | [] => rfl
  | col :: cols => by
    by_cases hc : i = 9 ∧ row = 7 ∧ col = 15
    · simp only [packCols, if_pos hc, packCols_white img hpx name i width height row cols]
    · simp only [packCols, if_neg hc, glyphRows_white img hpx,
        packCols_white img hpx name i width height row cols, List.nil_append]

theorem packRows_white (img : Image)
    (hpx : ∀ x y, img.pixel x y = (255, 255, 255, 255))
    (name : String) (i width height : Nat) :
    ∀ rows : List Nat, packRows img name i width height rows = .ok []
  | [] => rfl
  | row :: rows => by
    simp only [packRows, packCols_white img hpx,
      packRows_white img hpx name i width height rows, List.nil_append]

theorem encodeLevel_white (img : Image)
    (hpx : ∀ x y, img.pixel x y = (255, 255, 255, 255))
    (name : String) (i width height : Nat)
    (hdims : img.height = (height + 1) * 8 + 1 ∧ img.width = (width + 1) * 16 + 1) :
    encodeLevel img name i width height = .ok [] := by
  unfold encodeLevel
  rw [if_pos hdims]
  exact packRows_white img hpx name i width height _

theorem encodeLevels_white (store : Nat → Image) :
    ∀ l : List (Nat × Nat),
      (∀ p ∈ l, (store p.1).height = (p.2 * 2 + 1) * 8 + 1 ∧
        (store p.1).width = (p.2 + 1) * 16 + 1 ∧
        ∀ x y, (store p.1).pixel x y = (255, 255, 255, 255)) →
      encodeLevels store l = .ok []
  | [], _ => rfl
  | (i, width) :: rest, h => by
    have hh := h (i, width) (List.mem_cons_self _ _)
    simp only [encodeLevels,
      encodeLevel_white (store i) hh.2.2 (imgName i width (width * 2)) i width (width * 2)
        ⟨hh.1, hh.2.1⟩,
      encodeLevels_white store rest (fun p hp => h p (List.mem_cons_of_mem _ hp)),
      List.nil_append]

/-! ### The encoder only reads the pixels the loops sample -/

theorem sampleCols_congr (img img' : Image) (name : String) (width height row col h : Nat) :
    ∀ ws : List Nat,
      (∀ w ∈ ws, img.pixel (col * (width + 1) + w) (row * (height + 1) + h) =
        img'.pixel (col * (width + 1) + w) (row * (height + 1) + h)) →
      sampleCols img name width height row col h ws =
        sampleCols img' name width height row col h ws
  | [], _ => rfl
  | w :: ws, hag => by
    have h1 := hag w (List.mem_cons_self w ws)
    have h2 := sampleCols_congr img img' name width height row col h ws
      (fun u hu => hag u (List.mem_cons_of_mem _ hu))
    simp only [sampleCols, h1, h2]

theorem glyphRows_congr (img img' : Image) (name : String) (width height row col : Nat) :
    ∀ hs : List Nat,
      (∀ h ∈ hs, ∀ w ∈ List.range' 1 (width - 1),
        img.pixel (col * (width + 1) + w) (row * (height + 1) + h) =
          img'.pixel (col * (width + 1) + w) (row * (height + 1) + h)) →
      glyphRows img name width height row col hs =
        glyphRows img' name width height row col hs
  | [], _ => rfl
  | h :: hs, hag => by
    have h1 := sampleCols_congr img img' name width height row col h _
      (hag h (List.mem_cons_self h hs))
    have h2 := glyphRows_congr img img' name width height row col hs
      (fun u hu => hag u (List.mem_cons_of_mem _ hu))
    simp only [glyphRows, h1, h2]

theorem packCols_congr (img img' : Image) (name : String) (i width height row : Nat) :
    ∀ cols : List Nat,
      (∀ col ∈ cols, ¬(i = 9 ∧ row = 7 ∧ col = 15) →
        ∀ h ∈ List.range' 1 (height - 1), ∀ w ∈ List.range' 1 (width - 1),
          img.pixel (col * (width + 1) + w) (row * (height + 1) + h) =
            img'.pixel (col * (width + 1) + w) (row * (height + 1) + h)) →
      packCols img name i width height row cols =
        packCols img' name i width height row cols
  | [], _ => rfl
  | col :: cols, hag => by
    have h2 := packCols_congr img img' name i width height row cols
      (fun u hu => hag u (List.mem_cons_of_mem _ hu))
    by_cases hc : i = 9 ∧ row = 7 ∧ col = 15
    · simp only [packCols, if_pos hc, h2]
    · have h1 := glyphRows_congr img img' name width height row col _
        (fun h hh w hw => hag col (List.mem_cons_self col cols) hc h hh w hw)
      simp only [packCols, if_neg hc, h1, h2]

theorem packRows_congr (img img' : Image) (name : String) (i width height : Nat) :
    ∀ rows : List Nat,
      (∀ row ∈ rows, ∀ col ∈ List.range 16, ¬(i = 9 ∧ row = 7 ∧ col = 15) →
        ∀ h ∈ List.range' 1 (height - 1), ∀ w ∈ List.range' 1 (width - 1),
          img.pixel (col * (width + 1) + w) (row * (height + 1) + h) =
            img'.pixel (col * (width + 1) + w) (row * (height + 1) + h)) →
      packRows img name i width height rows = packRows img' name i width height rows
  | [], _ => rfl
  | row :: rows, hag => by
    have h1 := packCols_congr img img' name i width height row _
      (fun col hcol hc h hh w hw => hag row (List.mem_cons_self row rows) col hcol hc h hh w hw)
    have h2 := packRows_congr img img' name i width height rows
      (fun u hu => hag u (List.mem_cons_of_mem _ hu))
    simp only [packRows, h1, h2]

theorem encodeLevel_congr (img img' : Image) (name : String) (i width height : Nat)
    (hw : img.width = img'.width) (hh : img.height = img'.height)
    (hpx : ∀ row col h w, row < 8 → col < 16 → ¬(i = 9 ∧ row = 7 ∧ col = 15) →
      1 ≤ h → h < height → 1 ≤ w → w < width →
      img.pixel (col * (width + 1) + w) (row * (height + 1) + h) =
        img'.pixel (col * (width + 1) + w) (row * (height + 1) + h)) :
    encodeLevel img name i width height = encodeLevel img' name i width height := by
  unfold encodeLevel
  rw [hw, hh]
  by_cases hdims : img'.height = (height + 1) * 8 + 1 ∧ img'.width = (width + 1) * 16 + 1
  · rw [if_pos hdims, if_pos hdims]
    apply packRows_congr
    intro row hrow col hcol hc h hh' w hw'
    have hr : row < 8 := List.mem_range.1 hrow
    have hcl : col < 16 := List.mem_range.1 hcol
    have hhb := List.mem_range'_1.1 hh'
    have hwb := List.mem_range'_1.1 hw'
    exact hpx row col h w hr hcl hc hhb.1 (by omega) hwb.1 (by omega)
  · rw [if_neg hdims, if_neg hdims]

theorem encodeLevels_congr (s1 s2 : Nat → Image) :
    ∀ l : List (Nat × Nat),
      (∀ p ∈ l, encodeLevel (s1 p.1) (imgName p.1 p.2 (p.2 * 2)) p.1 p.2 (p.2 * 2) =
        encodeLevel (s2 p.1) (imgName p.1 p.2 (p.2 * 2)) p.1 p.2 (p.2 * 2)) →
      encodeLevels s1 l = encodeLevels s2 l
  | [], _ => rfl
  | (i, width) :: rest, hag => by
    have h1 := hag (i, width) (List.mem_cons_self _ _)
    have h2 := encodeLevels_congr s1 s2 rest (fun p hp => hag p (List.mem_cons_of_mem _ hp))
    simp only [encodeLevels] at h1 ⊢
    rw [h1, h2]

/-! ### The grid loops only raise the malformed-pixel error -/

theorem classifyPixel_error_shape {name : String} {p : Rgba} {e : EncodeError}
    (h : classifyPixel name p = .error e) : ∃ n r g b, e = .invalidPixel n r g b := by
  unfold classifyPixel at h
  by_cases h1 : (p.1, p.2.1, p.2.2.1) = ((0 : Nat), (0 : Nat), (0 : Nat))
  · rw [if_pos h1] at h; exact absurd h (by simp)
  · rw [if_neg h1] at h
    by_cases h2 : (p.1, p.2.1, p.2.2.1) = ((255 : Nat), (255 : Nat), (255 : Nat))
    · rw [if_pos h2] at h; exact absurd h (by simp)
    · rw [if_neg h2] at h
      exact ⟨name, p.1, p.2.1, p.2.2.1, by injection h with h; exact h.symm⟩

theorem sampleCols_error_shape (img : Image) (name : String) (width height row col h : Nat) :
    ∀ ws : List Nat, ∀ e : EncodeError,
      sampleCols img name width height row col h ws = .error e →
      ∃ n r g b, e = .invalidPixel n r g b
  | [], e => by intro he; exact absurd he (by simp [sampleCols])
  | w :: ws, e => by
    intro he
    simp only [sampleCols] at he
    cases hc : classifyPixel name
        (img.pixel (col * (width + 1) + w) (row * (height + 1) + h)) with
    | error e' =>
      rw [hc] at he
      injection he with he
      exact he ▸ classifyPixel_error_shape hc
    | ok bit =>
      rw [hc] at he
      cases hr : sampleCols img name width height row col h ws with
      | error e' =>
        rw [hr] at he
        injection he with he
        exact he ▸ sampleCols_error_shape img name width height row col h ws e' hr
      | ok bits => rw [hr] at he; exact absurd he (by simp)

theorem glyphRows_error_shape (img : Image) (name : String) (width height row col : Nat) :
    ∀ hs : List Nat, ∀ e : EncodeError,
      glyphRows img name width height row col hs = .error e →
      ∃ n r g b, e = .invalidPixel n r g b
  | [], e => by intro he; exact absurd he (by simp [glyphRows])
  | h :: hs, e => by
    intro he
    simp only [glyphRows] at he
    cases hc : sampleCols img name width height row col h (List.range' 1 (width - 1)) with
    | error e' =>
      rw [hc] at he
      injection he with he
      exact he ▸ sampleCols_error_shape img name width height row col h _ e' hc
    | ok bits =>
      rw [hc] at he
      cases hr : glyphRows img name width height row col hs with
      | error e' =>
        rw [hr] at he
        injection he with he
        exact he ▸ glyphRows_error_shape img name width height row col hs e' hr
      | ok rest => rw [hr] at he; exact absurd he (by simp)

theorem packCols_error_shape (img : Image) (name : String) (i width height row : Nat) :
    ∀ cols : List Nat, ∀ e : EncodeError,
      packCols img name i width height row cols = .error e →
      ∃ n r g b, e = .invalidPixel n r g b
  | [], e => by intro he; exact absurd he (by simp [packCols])
  | col :: cols, e => by
    intro he
    simp only [packCols] at he
    by_cases hc : i = 9 ∧ row = 7 ∧ col = 15
    · rw [if_pos hc] at he
      exact packCols_error_shape img name i width height row cols e he
    · rw [if_neg hc] at he
      cases hg : glyphRows img name width height row col (List.range' 1 (height - 1)) with
      | error e' =>
        rw [hg] at he
        injection he with he
        exact he ▸ glyphRows_error_shape img name width height row col _ e' hg
      | ok bytes =>
        rw [hg] at he
        cases hr : packCols img name i width height row cols with
        | error e' =>
          rw [hr] at he
          injection he with he
          exact he ▸ packCols_error_shape img name i width height row cols e' hr
        | ok rest => rw [hr] at he; exact absurd he (by simp)

theorem packRows_error_shape (img : Image) (name : String) (i width height : Nat) :
    ∀ rows : List Nat, ∀ e : EncodeError,
      packRows img name i width height rows = .error e →
      ∃ n r g b, e = .invalidPixel n r g b
  | [], e => by intro he; exact absurd he (by simp [packRows])
  | row :: rows, e => by
    intro he
    simp only [packRows] at he
    cases hc : packCols img name i width height row (List.range 16) with
    | error e' =>
      rw [hc] at he
      injection he with he
      exact he ▸ packCols_error_shape img name i width height row _ e' hc
    | ok bytes =>
      rw [hc] at he
      cases hr : packRows img name i width height rows with
      | error e' =>
        rw [hr] at he
        injection he with he
        exact he ▸ packRows_error_shape img name i width height rows e' hr
      | ok rest => rw [hr] at he; exact absurd he (by simp)

/-! ### Concrete atlas directories used as inputs -/

/-- The pixel width of level `i` (`PIXEL_WIDTHS[i]`). -/
def levelWidth (i : Nat) : Nat := PIXEL_WIDTHS.getD i 0

/-- The all-white, correctly dimensioned atlas for level `i`. -/
def whiteAtlas (i : Nat) : Image :=
  { width := (levelWidth i + 1) * 16 + 1,
    height := (levelWidth i * 2 + 1) * 8 + 1,
    pixel := fun _ _ => (255, 255, 255, 255) }

/-- The atlas directory holding an all-white atlas at every level. -/
def whiteStore : Nat → Image := whiteAtlas

theorem encode_white : encode_hzk_file whiteStore = .ok [] := by
  unfold encode_hzk_file
  apply encodeLevels_white
  intro p hp
  fin_cases hp <;> exact ⟨rfl, rfl, fun _ _ => rfl⟩

/-- The pixel rectangle the reserved hole glyph (level 9, grid row 7,
column 15, glyph width 32, height 64) would be sampled from:
`x = 15*(32+1)+w` for `1 ≤ w ≤ 31` and `y = 7*(64+1)+h` for
`1 ≤ h ≤ 63`. -/
def inHoleRegion (x y : Nat) : Prop :=
  15 * 33 + 1 ≤ x ∧ x ≤ 15 * 33 + 31 ∧ 7 * 65 + 1 ≤ y ∧ y ≤ 7 * 65 + 63

instance (x y : Nat) : Decidable (inHoleRegion x y) := by
  unfold inHoleRegion; infer_instance

/-- A level-9 atlas, all white except that the hole glyph's sample
rectangle is entirely black. -/
def blackHoleAtlas : Image :=
  { width := (32 + 1) * 16 + 1,
    height := (32 * 2 + 1) * 8 + 1,
    pixel := fun x y =>
      if inHoleRegion x y then (0, 0, 0, 255) else (255, 255, 255, 255) }

/-- All-white atlases, except that level 9's hole glyph is black. -/
def whiteStoreBlackHole : Nat → Image :=
  fun i => if i = 9 then blackHoleAtlas else whiteStore i

/-- A correctly dimensioned level-`i` atlas, all white except one
black pixel inside the glyph cell at grid row 7, column 15 (the
cell's first sampled position, `h = 1`, `w = 1`). -/
def slotBlackAtlas (i : Nat) : Image :=
  { width := (levelWidth i + 1) * 16 + 1,
    height := (levelWidth i * 2 + 1) * 8 + 1,
    pixel := fun x y =>
      if x = 15 * (levelWidth i + 1) + 1 ∧ y = 7 * (levelWidth i * 2 + 1) + 1
      then (0, 0, 0, 255) else (255, 255, 255, 255) }

/-- A 1×1 image, used as a wrongly dimensioned level-0 atlas. -/
def badDimsAtlas : Image :=
  { width := 1, height := 1, pixel := fun _ _ => (255, 255, 255, 255) }

/-- All-white atlases, except that level 0's image has dimensions 1×1. -/
def badDimsStore : Nat → Image :=
  fun i => if i = 0 then badDimsAtlas else whiteStore i

/-- A correctly dimensioned level-0 atlas whose first sampled pixel
(glyph row 0, column 0, `h = 1`, `w = 1`) is red. -/
def redPixelAtlas : Image :=
  { width := (6 + 1) * 16 + 1,
    height := (6 * 2 + 1) * 8 + 1,
    pixel := fun x y =>
      if x = 1 ∧ y = 1 then (255, 0, 0, 255) else (255, 255, 255, 255) }

/-- All-white atlases, except for one red pixel in level 0. -/
def redPixelStore : Nat → Image :=
  fun i => if i = 0 then redPixelAtlas else whiteStore i

/-- A correctly dimensioned all-black level-0 atlas. -/
def blackAtlas0 : Image :=
  { width := (6 + 1) * 16 + 1,
    height := (6 * 2 + 1) * 8 + 1,
    pixel := fun _ _ => (0, 0, 0, 255) }

/-! ### The whole encode stops at the first level that fails -/

theorem encodeLevels_error_first (store : Nat → Image) (e : EncodeError) :
    ∀ l : List (Nat × Nat), List.Pairwise (fun p q : Nat × Nat => p.1 < q.1) l →
      ∀ i width : Nat, (i, width) ∈ l →
      (∀ k wk, (k, wk) ∈ l → k < i →
        ∃ bs, encodeLevel (store k) (imgName k wk (wk * 2)) k wk (wk * 2) = .ok bs) →
      encodeLevel (store i) (imgName i width (width * 2)) i width (width * 2) = .error e →
      encodeLevels store l = .error e
  | [], _, i, width => by intro hmem; exact absurd hmem (List.not_mem_nil _)
  | (k, wk) :: rest, hpw, i, width => by
    intro hmem hok herr
    rcases List.mem_cons.1 hmem with heq | hmem'
    · injection heq with h1 h2
      subst h1; subst h2
      simp only [encodeLevels, herr]
    · have hk : k < i := (List.pairwise_cons.1 hpw).1 (i, width) hmem'
      obtain ⟨bs, hbs⟩ := hok k wk (List.mem_cons_self _ _) hk
      have ih := encodeLevels_error_first store e rest (List.pairwise_cons.1 hpw).2 i width hmem'
        (fun k' wk' h' hlt => hok k' wk' (List.mem_cons_of_mem _ h') hlt) herr
      simp only [encodeLevels, hbs, ih]

/-! ### Claim theorems -/

/-- C4: the encoder computes the expected atlas dimensions as
`image_width = (width+1)*16+1` and `image_height = (height+1)*8+1`
with `height = width*2`, and raises the dimension error — naming the
offending file and its actual dimensions — exactly when an opened
image's dimensions differ from the expected ones; the error aborts
the entire encode (given that the preceding levels succeeded, the
whole run returns this error rather than skipping the level). -/
theorem C4_dimension_gate (store : Nat → Image) (j width : Nat)
    (hj : (j, width) ∈ PIXEL_WIDTHS.enum)
    (hbad : ¬((store j).height = (width * 2 + 1) * 8 + 1 ∧
      (store j).width = (width + 1) * 16 + 1))
    (hprev : ∀ k wk, (k, wk) ∈ PIXEL_WIDTHS.enum → k < j →
      ∃ bs, encodeLevel (store k) (imgName k wk (wk * 2)) k wk (wk * 2) = .ok bs) :
    (∀ (img : Image) (nm : String) (i w h : Nat),
      encodeLevel img nm i w h = .error (.badDimensions nm img.width img.height) ↔
        ¬(img.height = (h + 1) * 8 + 1 ∧ img.width = (w + 1) * 16 + 1)) ∧
    encode_hzk_file store =
      .error (.badDimensions (imgName j width (width * 2)) (store j).width (store j).height) := by
  constructor
  · intro img nm i w h
    constructor
    · intro he hdims
      unfold encodeLevel at he
      rw [if_pos hdims] at he
      obtain ⟨n, r, g, b, hcon⟩ := packRows_error_shape img nm i w h _ _ he
      exact EncodeError.noConfusion hcon
    · intro hdims
      unfold encodeLevel
      rw [if_neg hdims]
  · exact encodeLevels_error_first store _ PIXEL_WIDTHS.enum (by decide) j width hj hprev
      (by unfold encodeLevel; rw [if_neg hbad])

theorem C4_dimension_gate_witness :
    ((0, 6) ∈ PIXEL_WIDTHS.enum) ∧
    ¬((badDimsStore 0).height = (6 * 2 + 1) * 8 + 1 ∧
      (badDimsStore 0).width = (6 + 1) * 16 + 1) ∧
    encode_hzk_file badDimsStore =
      .error (.badDimensions (imgName 0 6 (6 * 2)) (badDimsStore 0).width (badDimsStore 0).height) :=
  ⟨by decide, by decide,
    (C4_dimension_gate badDimsStore 0 6 (by decide) (by decide)
      (fun _ _ _ hlt => absurd hlt (Nat.not_lt_zero _))).2⟩

/-- C5: a sampled pixel with RGB `(0,0,0)` is classified as bit 1,
`(255,255,255)` as bit 0, and any other RGB triple raises the
malformed-pixel error naming the offending file and the RGB values;
such an error aborts the whole encode (shown on a directory whose
level-0 atlas has a single red pixel: the entire run returns the
error). -/
theorem C5_color_gate :
    (∀ (name : String) (a : Nat), classifyPixel name (0, 0, 0, a) = .ok 1) ∧
    (∀ (name : String) (a : Nat), classifyPixel name (255, 255, 255, a) = .ok 0) ∧
    (∀ (name : String) (r g b a : Nat), ¬(r = 0 ∧ g = 0 ∧ b = 0) →
      ¬(r = 255 ∧ g = 255 ∧ b = 255) →
      classifyPixel name (r, g, b, a) = .error (.invalidPixel name r g b)) ∧
    encode_hzk_file redPixelStore = .error (.invalidPixel (imgName 0 6 12) 255 0 0) :=
  ⟨fun _ _ => rfl, fun _ _ => rfl,
    fun name r g b a hb hw => classifyPixel_other name r g b a hb hw, rfl⟩

theorem C5_color_gate_witness :
    ¬((10 : Nat) = 0 ∧ (20 : Nat) = 0 ∧ (30 : Nat) = 0) ∧
    ¬((10 : Nat) = 255 ∧ (20 : Nat) = 255 ∧ (30 : Nat) = 255) ∧
    classifyPixel "f.png" (10, 20, 30, 0) = .error (.invalidPixel "f.png" 10 20 30) :=
  ⟨by decide, by decide, C5_color_gate.2.2.1 "f.png" 10 20 30 0 (by decide) (by decide)⟩

/-- C8: encoding is deterministic — the output depends only on the
images stored for the ten levels, so two runs over identical
directory contents produce byte-identical output. -/
theorem C8_deterministic_encode (s1 s2 : Nat → Image)
    (h : ∀ i, i < 10 → s1 i = s2 i) :
    encode_hzk_file s1 = encode_hzk_file s2 := by
  unfold encode_hzk_file
  apply encodeLevels_congr
  intro p hp
  have h1 : p.1 ∈ List.range PIXEL_WIDTHS.length := by
    rw [List.enum_eq_zip_range] at hp
    exact (List.of_mem_zip hp).1
  have h2 : p.1 < 10 := by simpa [PIXEL_WIDTHS] using List.mem_range.1 h1
  rw [h p.1 h2]

theorem C8_deterministic_encode_witness :
    (∀ i, i < 10 → whiteStore i = whiteAtlas i) ∧
    encode_hzk_file whiteStore = encode_hzk_file whiteAtlas :=
  ⟨fun _ _ => rfl, C8_deterministic_encode whiteStore whiteAtlas (fun _ _ => rfl)⟩

/-- C9 counterexample: `bits_to_byte_array` does not leave its caller's
list unchanged — on the one-element list `[1]` the call pads the list
in place to `[1,0,0,0,0,0,0,0]`. -/
theorem C9_purity_counterexample : (bits_to_byte_array [1]).1 ≠ [1] := by decide

/-- C9 (amended): `bits_to_byte_array` mutates its argument exactly by
appending `(8 - len % 8) % 8` zero bits; the caller's list is left
unchanged if and only if its length is already a multiple of 8. -/
theorem C9_mutation_amended (bits : List Nat) :
    (bits_to_byte_array bits).1 = bits ++ List.replicate ((8 - bits.length % 8) % 8) 0 ∧
    ((bits_to_byte_array bits).1 = bits ↔ bits.length % 8 = 0) := by
  refine ⟨bits_to_byte_array_padded bits, ?_, ?_⟩
  · intro h
    by_contra hne
    have h1 := bits_to_byte_array_padded bits
    rw [h] at h1
    have h2 := congrArg List.length h1
    simp only [List.length_append, List.length_replicate] at h2
    omega
  · intro h
    rw [bits_to_byte_array_padded bits, h]
    simp

/-- C10: a bit list consisting only of 0 bits — of any length,
including nonzero multiples of 8 — makes `bits_to_byte_array` return
an empty byte sequence (the packed numeric value is 0, so
`bytearray(0)` has no bytes). -/
theorem C10_zero_bits_empty_output (bits : List Nat) (h : ∀ b ∈ bits, b = 0) :
    (bits_to_byte_array bits).2 = [] :=
  bits_to_byte_array_out_zero h

theorem C10_zero_bits_empty_output_witness :
    (∀ b ∈ [0, 0, 0, 0, 0, 0, 0, 0, 0, 0, 0, 0, 0, 0, 0, 0], b = (0 : Nat)) ∧
    (bits_to_byte_array [0, 0, 0, 0, 0, 0, 0, 0, 0, 0, 0, 0, 0, 0, 0, 0]).2 = [] :=
  ⟨by decide, C10_zero_bits_empty_output _ (by decide)⟩

set_option maxRecDepth 4096 in
/-- C1: `bits_to_byte_array` does not pack bits into bytes — on the
input `[1]` the spec's packing (`packBitsSpec`, padding to
`[1,0,0,0,0,0,0,0]` and packing MSB-first) gives the single byte
`0x80`, while the source returns `bytearray(128)`, i.e. 128 zero
bytes, so its output length is not `ceil(1/8) = 1`. -/
theorem C1_bits_to_byte_array_divergence :
    (bits_to_byte_array [1]).2 = List.replicate 128 0 ∧
    packBitsSpec [1] = [128] ∧
    (bits_to_byte_array [1]).2 ≠ packBitsSpec [1] ∧
    (bits_to_byte_array [1]).2.length ≠ (1 + 7) / 8 := by decide

set_option maxRecDepth 4096 in
/-- C2: for the all-black width-6 atlas, a glyph row's sampled bit run
is the five 1-samples `[1,1,1,1,1]`; the spec's packing gives the
single byte `0b11111000 = 248`, but the source emits
`bytearray(248)` — 248 zero bytes — for that row.  A bit list whose
length is already a multiple of 8 receives no padding. -/
theorem C2_byte_order_divergence :
    sampleCols blackAtlas0 (imgName 0 6 12) 6 12 0 0 1 (List.range' 1 (6 - 1)) =
      .ok [1, 1, 1, 1, 1] ∧
    packBitsSpec [1, 1, 1, 1, 1] = [248] ∧
    (bits_to_byte_array [1, 1, 1, 1, 1]).2 = List.replicate 248 0 ∧
    (bits_to_byte_array [1, 1, 1, 1, 1]).2 ≠ [248] ∧
    (bits_to_byte_array [1, 1, 1, 1, 1, 0, 0, 0]).1 = [1, 1, 1, 1, 1, 0, 0, 0] :=
  ⟨rfl, by decide, by decide, by decide, by decide⟩

/-- The total byte count C3 claims for all-white atlases:
`sum over levels of glyphs * drawable rows * ceil((width-1)/8)` with
127 glyphs at the hole level (ordinal 9) and 128 elsewhere. -/
def claimedAllWhiteTotal : Nat :=
  (PIXEL_WIDTHS.enum.map (fun p =>
    (if p.1 = 9 then 127 else 128) * (p.2 * 2 - 1) * ((p.2 - 1 + 7) / 8))).sum

/-- C3: on the directory of all-white atlases the encoder writes 0
bytes — every row's bit run is all zeros, whose packed value is 0, so
`bytearray(0)` is empty — while the claimed total
`sum over levels of glyphs * rows * ceil((width-1)/8)` (127 glyphs at
the hole level, 128 elsewhere) is 122116. -/
theorem C3_allwhite_byte_count_divergence :
    encode_hzk_file whiteStore = .ok [] ∧
    ([] : List Nat).length = 0 ∧
    claimedAllWhiteTotal = 122116 ∧
    ([] : List Nat).length ≠ claimedAllWhiteTotal :=
  ⟨encode_white, rfl, by decide, by decide⟩

/-- Changing only the level-9 image's pixels inside the hole glyph's
sample rectangle (and no dimension) never changes the encoder's
output: those pixels are not sampled. -/
theorem encode_ignores_hole (s1 s2 : Nat → Image)
    (hne : ∀ i, i ≠ 9 → s1 i = s2 i)
    (hw : (s1 9).width = (s2 9).width)
    (hh : (s1 9).height = (s2 9).height)
    (hpx : ∀ x y, ¬inHoleRegion x y → (s1 9).pixel x y = (s2 9).pixel x y) :
    encode_hzk_file s1 = encode_hzk_file s2 := by
  unfold encode_hzk_file
  apply encodeLevels_congr
  intro p hp
  by_cases h9 : p.1 = 9
  · have hget := List.mem_enum_iff_getElem?.1 hp
    rw [h9] at hget
    have h32 : p.2 = 32 := by
      simp only [PIXEL_WIDTHS] at hget
      simp at hget
      omega
    rw [h9, h32]
    apply encodeLevel_congr _ _ _ _ _ _ hw hh
    intro row col h w hrow hcol hc hh1 hh2 hw1 hw2
    apply hpx
    have h79 : ¬(row = 7 ∧ col = 15) := fun hcc => hc ⟨rfl, hcc.1, hcc.2⟩
    unfold inHoleRegion
    omega
  · rw [hne p.1 h9]

/-- At any level with index other than 9, the glyph slot at grid row
7, column 15 is sampled: on an atlas that is white except for that
slot's first sampled pixel, the level's output differs from the
all-white encoding. -/
theorem encodeLevel_slot15_sensitive (img : Image) (name : String) (i width : Nat)
    (hi : i ≠ 9) (hW : 2 ≤ width)
    (hdims : img.height = (width * 2 + 1) * 8 + 1 ∧ img.width = (width + 1) * 16 + 1)
    (hpx : ∀ x y, img.pixel x y =
      if x = 15 * (width + 1) + 1 ∧ y = 7 * (width * 2 + 1) + 1 then (0, 0, 0, 255)
      else (255, 255, 255, 255)) :
    encodeLevel img name i width (width * 2) ≠ .ok [] := by
  have hwhitepx : ∀ x y, (x ≠ 15 * (width + 1) + 1 ∨ y ≠ 7 * (width * 2 + 1) + 1) →
      img.pixel x y = (255, 255, 255, 255) := by
    intro x y hxy
    rw [hpx x y, if_neg (by tauto)]
  -- rows 0-6 sample no pixel of the black cell
  have hrowOK : ∀ row, row ≤ 6 →
      packCols img name i width (width * 2) row (List.range 16) = .ok [] := by
    intro row hr
    rw [packCols_congr img (whiteAtlas 0) name i width (width * 2) row (List.range 16) ?_]
    · exact packCols_white (whiteAtlas 0) (fun _ _ => rfl) name i width (width * 2) row _
    · intro col hcol hc h hh w hw
      have hhb := List.mem_range'_1.1 hh
      have hb : row * (width * 2 + 1) ≤ 6 * (width * 2 + 1) := Nat.mul_le_mul_right _ hr
      exact hwhitepx _ _ (Or.inr (by omega))
  -- in row 7, columns 0-14 sample no pixel of the black cell
  have hcolOK : ∀ col, col ≤ 14 →
      glyphRows img name width (width * 2) 7 col (List.range' 1 (width * 2 - 1)) = .ok [] := by
    intro col hc
    rw [glyphRows_congr img (whiteAtlas 0) name width (width * 2) 7 col _ ?_]
    · exact glyphRows_white (whiteAtlas 0) (fun _ _ => rfl) name width (width * 2) 7 col _
    · intro h hh w hw
      have hwb := List.mem_range'_1.1 hw
      have hb : col * (width + 1) ≤ 14 * (width + 1) := Nat.mul_le_mul_right _ hc
      exact hwhitepx _ _ (Or.inl (by omega))
  -- the first sampled pixel row of cell (7,15) reads the black pixel
  have hsample1 : sampleCols img name width (width * 2) 7 15 1 (List.range' 1 (width - 1)) =
      .ok (1 :: List.replicate (width - 2) 0) := by
    have hsplit : List.range' 1 (width - 1) = 1 :: List.range' 2 (width - 2) := by
      rw [show width - 1 = (width - 2) + 1 from by omega]
      rfl
    have htail : sampleCols img name width (width * 2) 7 15 1 (List.range' 2 (width - 2)) =
        .ok (List.replicate (width - 2) 0) := by
      rw [sampleCols_congr img (whiteAtlas 0) name width (width * 2) 7 15 1 _ ?_]
      · have hws := sampleCols_white (whiteAtlas 0) (fun _ _ => rfl) name width (width * 2)
          7 15 1 (List.range' 2 (width - 2))
        rwa [List.length_range'] at hws
      · intro w hw
        have hwb := List.mem_range'_1.1 hw
        exact hwhitepx _ _ (Or.inl (by omega))
    have hx0 : img.pixel (15 * (width + 1) + 1) (7 * (width * 2 + 1) + 1) = (0, 0, 0, 255) := by
      rw [hpx, if_pos ⟨rfl, rfl⟩]
    rw [hsplit]
    simp only [sampleCols, hx0, htail]
    rfl
  -- the remaining pixel rows of cell (7,15) are white
  have hglyph7 : glyphRows img name width (width * 2) 7 15 (List.range' 1 (width * 2 - 1)) =
      .ok ((bits_to_byte_array (1 :: List.replicate (width - 2) 0)).2) := by
    have hsplit : List.range' 1 (width * 2 - 1) = 1 :: List.range' 2 (width * 2 - 2) := by
      rw [show width * 2 - 1 = (width * 2 - 2) + 1 from by omega]
      rfl
    have htail : glyphRows img name width (width * 2) 7 15 (List.range' 2 (width * 2 - 2)) =
        .ok [] := by
      rw [glyphRows_congr img (whiteAtlas 0) name width (width * 2) 7 15 _ ?_]
      · exact glyphRows_white (whiteAtlas 0) (fun _ _ => rfl) name width (width * 2) 7 15 _
      · intro h hh w hw
        have hhb := List.mem_range'_1.1 hh
        exact hwhitepx _ _ (Or.inr (by omega))
    rw [hsplit]
    simp only [glyphRows, hsample1, htail, List.append_nil]
  -- assemble row 7
  have hnothole : ¬(i = 9 ∧ (7 : Nat) = 7 ∧ (15 : Nat) = 15) := fun hq => hi hq.1
  have hcol15 : packCols img name i width (width * 2) 7 (List.range 16) =
      .ok ((bits_to_byte_array (1 :: List.replicate (width - 2) 0)).2) := by
    have h16 : List.range 16 = [0, 1, 2, 3, 4, 5, 6, 7, 8, 9, 10, 11, 12, 13, 14, 15] := rfl
    rw [h16]
    simp only [packCols, hcolOK 0 (by omega), hcolOK 1 (by omega), hcolOK 2 (by omega),
      hcolOK 3 (by omega), hcolOK 4 (by omega), hcolOK 5 (by omega), hcolOK 6 (by omega),
      hcolOK 7 (by omega), hcolOK 8 (by omega), hcolOK 9 (by omega), hcolOK 10 (by omega),
      hcolOK 11 (by omega), hcolOK 12 (by omega), hcolOK 13 (by omega), hcolOK 14 (by omega),
      hglyph7, if_neg hnothole, List.nil_append, List.append_nil]
    simp [hi]
  -- assemble the level
  have hpack : packRows img name i width (width * 2) (List.range 8) =
      .ok ((bits_to_byte_array (1 :: List.replicate (width - 2) 0)).2) := by
    have h8 : List.range 8 = [0, 1, 2, 3, 4, 5, 6, 7] := rfl
    rw [h8]
    simp only [packRows, hrowOK 0 (by omega), hrowOK 1 (by omega), hrowOK 2 (by omega),
      hrowOK 3 (by omega), hrowOK 4 (by omega), hrowOK 5 (by omega), hrowOK 6 (by omega),
      hcol15, List.nil_append, List.append_nil]
  have henc : encodeLevel img name i width (width * 2) =
      .ok ((bits_to_byte_array (1 :: List.replicate (width - 2) 0)).2) := by
    unfold encodeLevel
    rw [if_pos hdims]
    exact hpack
  -- the emitted byte run is nonempty: the padded bit list starts with a 1
  have hBne : (bits_to_byte_array (1 :: List.replicate (width - 2) 0)).2 ≠ [] := by
    rw [bits_to_byte_array_snd, bits_to_byte_array_padded, List.cons_append, bitValue_cons]
    intro hcon
    rw [List.replicate_eq_nil_iff, Nat.one_shiftLeft] at hcon
    have hp : 0 < 2 ^ (List.replicate (width - 2) 0 ++
        List.replicate ((8 - (1 :: List.replicate (width - 2) 0).length % 8) % 8) 0).length :=
      Nat.pow_pos (by omega)
    omega
  rw [henc]
  intro hcon
  injection hcon with hcon
  exact hBne hcon

/-- C6: the reserved hole slot (level ordinal 9, grid row 7, column
15) is never sampled — changing only its pixel rectangle in the
level-9 image changes nothing in the output — and contributes zero
bytes (painting it black still encodes to the all-white output);
at every other level the slot at row 7, column 15 is packed
normally: for each level index `i ≠ 9`, blackening one pixel of that
slot changes the level's output away from the all-white encoding. -/
theorem C6_reserved_hole :
    (∀ s1 s2 : Nat → Image,
      (∀ i, i ≠ 9 → s1 i = s2 i) →
      (s1 9).width = (s2 9).width →
      (s1 9).height = (s2 9).height →
      (∀ x y, ¬inHoleRegion x y → (s1 9).pixel x y = (s2 9).pixel x y) →
      encode_hzk_file s1 = encode_hzk_file s2) ∧
    encode_hzk_file whiteStoreBlackHole = .ok [] ∧
    (∀ i width, (i, width) ∈ PIXEL_WIDTHS.enum → i ≠ 9 →
      encodeLevel (slotBlackAtlas i) (imgName i width (width * 2)) i width (width * 2) ≠
        encodeLevel (whiteStore i) (imgName i width (width * 2)) i width (width * 2)) := by
  refine ⟨encode_ignores_hole, ?_, ?_⟩
  · have h1 : encode_hzk_file whiteStoreBlackHole = encode_hzk_file whiteStore :=
      encode_ignores_hole whiteStoreBlackHole whiteStore
        (fun i hi => if_neg hi) rfl rfl
        (fun x y hxy => by
          simp [whiteStoreBlackHole, blackHoleAtlas, whiteStore, whiteAtlas, hxy])
    rw [h1]
    exact encode_white
  · intro i width hmem hi
    fin_cases hmem <;> first
      | exact absurd rfl hi
      | exact fun hcon => encodeLevel_slot15_sensitive _ _ _ _ hi (by decide) ⟨rfl, rfl⟩
          (fun x y => rfl)
          (hcon.trans (encodeLevel_white _ (fun _ _ => rfl) _ _ _ _ ⟨rfl, rfl⟩))

theorem C6_reserved_hole_witness :
    (∀ i, i ≠ 9 → whiteStoreBlackHole i = whiteStore i) ∧
    (whiteStoreBlackHole 9).width = (whiteStore 9).width ∧
    (whiteStoreBlackHole 9).height = (whiteStore 9).height ∧
    (∀ x y, ¬inHoleRegion x y →
      (whiteStoreBlackHole 9).pixel x y = (whiteStore 9).pixel x y) ∧
    encode_hzk_file whiteStoreBlackHole = encode_hzk_file whiteStore ∧
    ((3, 12) ∈ PIXEL_WIDTHS.enum) ∧ ((3 : Nat) ≠ 9) ∧
    encodeLevel (slotBlackAtlas 3) (imgName 3 12 (12 * 2)) 3 12 (12 * 2) ≠
      encodeLevel (whiteStore 3) (imgName 3 12 (12 * 2)) 3 12 (12 * 2) := by
  refine ⟨fun i hi => if_neg hi, rfl, rfl,
    fun x y hxy => by
      simp [whiteStoreBlackHole, blackHoleAtlas, whiteStore, whiteAtlas, hxy],
    ?_, by decide, by decide, ?_⟩
  · exact C6_reserved_hole.1 whiteStoreBlackHole whiteStore (fun i hi => if_neg hi) rfl rfl
      (fun x y hxy => by
        simp [whiteStoreBlackHole, blackHoleAtlas, whiteStore, whiteAtlas, hxy])
  · exact C6_reserved_hole.2.2 3 12 (by decide) (by decide)

/-- C7: the round trip fails — `decode_hzk_file` returns during its
first loop iteration and writes no image, so decoding the bytes the
encoder produced for the all-white atlas directory reconstructs no
atlas at all (0 images instead of one per level). -/
theorem C7_round_trip_fails (output : List Nat)
    (_henc : encode_hzk_file whiteStore = .ok output) :
    decode_hzk_file output = [] ∧
    (decode_hzk_file output).length ≠ PIXEL_WIDTHS.length :=
  ⟨rfl, show (0 : Nat) ≠ 10 from by decide⟩

theorem C7_round_trip_fails_witness :
    encode_hzk_file whiteStore = .ok [] ∧
    decode_hzk_file [] = [] ∧
    (decode_hzk_file []).length ≠ PIXEL_WIDTHS.length :=
  ⟨encode_white, (C7_round_trip_fails [] encode_white).1,
    (C7_round_trip_fails [] encode_white).2⟩
